import Mathlib

/-!
Verification of the `blue` text-editing core.

The text-storage collaborator (a rope offering byte length, byte-indexed
insert/delete, line queries and a grapheme-boundary predicate) is modelled as a
list of grapheme clusters.  Each cluster records its byte length, its rendered
display width (the display-width collaborator) and whether it is a line
terminator.  All editor state and operations are translated from the Rust
sources (`src/main.rs`, `src/editor.rs`, `src/graphemes.rs`).
-/

namespace Blue

/-- One grapheme cluster of the buffer: its UTF-8 byte length, its terminal
display width, and whether it is a line terminator (`"\n"` or `"\r\n"`). -/
structure Grapheme where
  len : Nat
  width : Nat
  nl : Bool
deriving DecidableEq, Repr

/-- A rope is a sequence of grapheme clusters. -/
abbrev Rope := List Grapheme

/-- Sum of byte lengths of a list of graphemes. -/
def sumLen : Rope → Nat
  | [] => 0
  | g :: gs => g.len + sumLen gs

/-- Sum of display widths of a list of graphemes. -/
def sumWidth : Rope → Nat
  | [] => 0
  | g :: gs => g.width + sumWidth gs

/-- Total byte length of the rope (`Rope::byte_len`). -/
def byteLen (R : Rope) : Nat := sumLen R

/-- Well-formedness of a rope: every grapheme cluster is a nonempty byte
sequence and occupies at least one terminal cell. -/
def WF (R : Rope) : Prop := ∀ g ∈ R, 1 ≤ g.len ∧ 1 ≤ g.width

instance (R : Rope) : Decidable (WF R) := List.decidableBAll _ R

/-- `Rope::is_grapheme_boundary`: a byte offset is a boundary iff it is a
prefix sum of cluster byte lengths (0 and the total length always are). -/
def isB : Rope → Nat → Bool
  | [], o => o = 0
  | g :: gs, o => if o = 0 then true else if o < g.len then false else isB gs (o - g.len)

/-- `Rope::line_len`: number of lines; a trailing line terminator does not
open a new (empty) final line, and the empty rope has no lines. -/
def lineLen : Rope → Nat
  | [] => 0
  | g :: gs => if g.nl then 1 + lineLen gs else max 1 (lineLen gs)

/-- `Rope::line_of_byte`: index of the line containing the byte offset; the
total byte length maps to the number of line terminators. -/
def lineOfByte : Rope → Nat → Nat
  | [], _ => 0
  | g :: gs, o => if o < g.len then 0 else (if g.nl then 1 else 0) + lineOfByte gs (o - g.len)

/-- `Rope::byte_of_line`: byte offset of the start of a line. -/
def byteOfLine : Rope → Nat → Nat
  | [], _ => 0
  | _ :: _, 0 => 0
  | g :: gs, i + 1 => g.len + byteOfLine gs (if g.nl then i else i + 1)

/-- Suffix of the rope starting at the first grapheme of line `i`. -/
def restFromLine : Rope → Nat → Rope
  | R, 0 => R
  | [], _ + 1 => []
  | g :: gs, i + 1 => restFromLine gs (if g.nl then i else i + 1)

/-- `Rope::line(i)`: the graphemes of line `i`, excluding its terminator. -/
def lineContent (R : Rope) (i : Nat) : Rope :=
  (restFromLine R i).takeWhile (fun g => !g.nl)

/-- The grapheme clusters lying entirely inside the byte range `[a, b)`;
exact when `a` and `b` are grapheme boundaries. -/
def graphemesIn : Rope → Nat → Nat → Rope
  | [], _, _ => []
  | g :: gs, a, b =>
    if g.len ≤ a then graphemesIn gs (a - g.len) (b - g.len)
    else if g.len ≤ b then g :: graphemesIn gs 0 (b - g.len)
    else []

/-- Modelled from the spec: the display-width collaborator (`display_width.rs`
is not part of the sources) applied to the byte slice `[a, b)`; the width of a
slice is the sum of the widths of its grapheme clusters. -/
def sliceWidth (R : Rope) (a b : Nat) : Nat := sumWidth (graphemesIn R a b)

/-- `Rope::delete(a..b)`: removes the clusters of the byte range `[a, b)`
(for boundary offsets; an empty range removes nothing). -/
def delBytes : Rope → Nat → Nat → Rope
  | [], _, _ => []
  | g :: gs, a, b =>
    if g.len ≤ a then g :: delBytes gs (a - g.len) (b - g.len)
    else if g.len ≤ b then delBytes gs 0 (b - g.len)
    else g :: gs

/-- `Rope::insert(o, s)`: splice the clusters of `s` at byte offset `o`
(exact for boundary offsets; the collaborator would reject other offsets). -/
def insertGs : Rope → Nat → Rope → Rope
  | R, 0, s => s ++ R
  | [], _ + 1, s => s
  | g :: gs, o + 1, s => if g.len ≤ o + 1 then g :: insertGs gs (o + 1 - g.len) s else g :: (s ++ gs)

/-- The display-column walk shared by `extend_up`/`extend_down` and
`position_to_byte_offset`: consume graphemes while the accumulated width,
plus the next grapheme, does not exceed the target column `d`. -/
def columnWalk : Rope → Nat → Nat → Nat → Nat
  | [], off, _, _ => off
  | g :: gs, off, p, d => if d < p + g.width then off else columnWalk gs (off + g.len) (p + g.width) d

/-! ### `src/graphemes.rs` -/

/-- The backward scan of `prev_grapheme_boundary`: greatest boundary strictly
below `o` (for `1 ≤ o ≤ byteLen R`; returns 0 at `o = 0`). -/
def prevScan (R : Rope) : Nat → Nat
  | 0 => 0
  | o + 1 => if isB R o then o else prevScan R o

/-- The forward scan of `next_grapheme_boundary`, with explicit fuel
(the Rust loop runs at most `byteLen R - o` steps). -/
def nextAux (R : Rope) : Nat → Nat → Nat
  | 0, o => o
  | fuel + 1, o => if isB R (o + 1) then o + 1 else nextAux R fuel (o + 1)

/-- `prev_grapheme_boundary` from `src/graphemes.rs`. -/
def prev_grapheme_boundary (R : Rope) (o : Nat) : Option Nat :=
  if o = 0 then none
  else if byteLen R < o then some (byteLen R)
  else some (prevScan R o)

/-- `next_grapheme_boundary` from `src/graphemes.rs`. -/
def next_grapheme_boundary (R : Rope) (o : Nat) : Option Nat :=
  if byteLen R ≤ o then none
  else some (nextAux R (byteLen R - o) o)

/-- `floor_grapheme_boundary` from `src/graphemes.rs` (the source unwraps the
inner option; the default is unreachable there since 0 is a boundary). -/
def floor_grapheme_boundary (R : Rope) (o : Nat) : Nat :=
  if byteLen R < o then byteLen R
  else if isB R o then o
  else (prev_grapheme_boundary R o).getD 0

/-- `ceil_grapheme_boundary` from `src/graphemes.rs` (the source unwraps the
inner option; the default is unreachable there since the length is a
boundary). -/
def ceil_grapheme_boundary (R : Rope) (o : Nat) : Nat :=
  if byteLen R < o then byteLen R
  else if isB R o then o
  else (next_grapheme_boundary R o).getD 0

/-! ### Editor state (`src/main.rs`, `struct Editor`) -/

/-- A status-bar message: success or error (`Option<Result<String, String>>`
in the source, with `none` for no message). -/
inductive Status where
  | ok (s : String)
  | error (s : String)
deriving DecidableEq, Repr

/-- The input mode (`enum Mode` in the source). -/
inductive Mode where
  | normal
  | goto
  | insert
  | command
deriving DecidableEq, Repr

/-- The aggregate editor state (`struct Editor` in `src/main.rs`).  The
command-line buffer is modelled as a string with a byte cursor; the exit code
is the optional `ExitCode` payload. -/
structure Editor where
  pwd : Option String
  path : Option String
  modified : Bool
  text : Rope
  anchor : Nat
  head : Nat
  desired_column : Option Nat
  vertical_scroll : Nat
  mode : Mode
  command : String
  command_cursor : Nat
  message : Option Status
  exit_code : Option Nat
deriving DecidableEq, Repr

/-- `Editor::try_from(rope)`: the initial state over a given buffer. -/
def initialEditor (R : Rope) : Editor :=
  { pwd := none, path := none, modified := false, text := R, anchor := 0, head := 0
    desired_column := none, vertical_scroll := 0, mode := Mode.normal
    command := "", command_cursor := 0, message := none, exit_code := none }

/-- `Editor::is_forward`. -/
def Editor.is_forward (e : Editor) : Bool := e.anchor ≤ e.head

/-- `Editor::is_backward`. -/
def Editor.is_backward (e : Editor) : Bool := !e.is_forward

/-- `Editor::flip`. -/
def Editor.flip (e : Editor) : Editor := { e with anchor := e.head, head := e.anchor }

/-- `Editor::flip_forward`. -/
def Editor.flip_forward (e : Editor) : Editor := if e.is_forward then e else e.flip

/-- `Editor::reduce`. -/
def Editor.reduce (e : Editor) : Editor := { e with anchor := e.head }

/-- The loop body of `Editor::extend_left`: step `head` back through up to
`count` grapheme boundaries, stopping silently at the buffer start. -/
def extendLeftLoop (R : Rope) (head : Nat) : Nat → Nat
  | 0 => head
  | c + 1 =>
    match prev_grapheme_boundary R head with
    | some p => if head ≠ p then extendLeftLoop R p c else head
    | none => head

/-- The loop body of `Editor::extend_right`. -/
def extendRightLoop (R : Rope) (head : Nat) : Nat → Nat
  | 0 => head
  | c + 1 =>
    match next_grapheme_boundary R head with
    | some n => if head ≠ n then extendRightLoop R n c else head
    | none => head

/-- `Editor::extend_left` (main.rs): move `head` left, then clear the cached
desired column. -/
def Editor.extend_left (e : Editor) (count : Nat) : Editor :=
  { e with head := extendLeftLoop e.text e.head count, desired_column := none }

/-- `Editor::extend_right` (main.rs). -/
def Editor.extend_right (e : Editor) (count : Nat) : Editor :=
  { e with head := extendRightLoop e.text e.head count, desired_column := none }

/-- `Editor::extend_up` (main.rs): per step, if not on line 0, lazily compute
and cache the desired display column, then walk the previous line up to that
column. -/
def Editor.extend_up : Editor → Nat → Editor
  | e, 0 => e
  | e, count + 1 =>
    let ci := lineOfByte e.text e.head
    if ci = 0 then e
    else
      let d := e.desired_column.getD (sliceWidth e.text (byteOfLine e.text ci) e.head)
      let e' : Editor := { e with
        desired_column := some d
        head := columnWalk (lineContent e.text (ci - 1)) (byteOfLine e.text (ci - 1)) 0 d }
      e'.extend_up count

/-- `Editor::extend_down` (main.rs): per step, if the next line exists walk it
up to the cached column; otherwise set `head` to end of buffer and stop. -/
def Editor.extend_down : Editor → Nat → Editor
  | e, 0 => e
  | e, count + 1 =>
    let ci := lineOfByte e.text e.head
    if lineLen e.text ≤ ci + 1 then { e with head := byteLen e.text }
    else
      let d := e.desired_column.getD (sliceWidth e.text (byteOfLine e.text ci) e.head)
      let e' : Editor := { e with
        desired_column := some d
        head := columnWalk (lineContent e.text (ci + 1)) (byteOfLine e.text (ci + 1)) 0 d }
      e'.extend_down count

/-- `Editor::extend_line_start` (main.rs): `head` to the current line start
(the main.rs variant does not touch the desired column). -/
def Editor.extend_line_start (e : Editor) : Editor :=
  { e with head := byteOfLine e.text (lineOfByte e.text e.head) }

/-- `Editor::extend_line_end` (main.rs): `head` to the current line end
(excluding the terminator).  `none` models the out-of-bounds line access the
source itself flags: `TODO: Fix line index out of bounds panic when running
this at EOF`. -/
def Editor.extend_line_end (e : Editor) : Option Editor :=
  let li := lineOfByte e.text e.head
  if lineLen e.text ≤ li then none
  else some { e with head := byteOfLine e.text li + sumLen (lineContent e.text li) }

/-- `Editor::move_left`. -/
def Editor.move_left (e : Editor) (count : Nat) : Editor := (e.extend_left count).reduce

/-- `Editor::move_right`. -/
def Editor.move_right (e : Editor) (count : Nat) : Editor := (e.extend_right count).reduce

/-- `Editor::move_up`. -/
def Editor.move_up (e : Editor) (count : Nat) : Editor := (e.extend_up count).reduce

/-- `Editor::move_down`. -/
def Editor.move_down (e : Editor) (count : Nat) : Editor := (e.extend_down count).reduce

/-- `Editor::move_line_start`. -/
def Editor.move_line_start (e : Editor) : Editor := e.extend_line_start.reduce

/-- `Editor::move_line_end` (partial like `extend_line_end`). -/
def Editor.move_line_end (e : Editor) : Option Editor :=
  e.extend_line_end.map Editor.reduce

/-- `Editor::scroll_up` (main.rs); the `debug_assert!` on entry is a
defensive check, not behaviour, and is not modelled. -/
def Editor.scroll_up (e : Editor) (distance : Nat) : Editor :=
  { e with vertical_scroll := e.vertical_scroll - distance }

/-- `Editor::scroll_down` (main.rs): clamp to the last line index. -/
def Editor.scroll_down (e : Editor) (distance : Nat) : Editor :=
  { e with vertical_scroll := min (lineLen e.text - 1) (e.vertical_scroll + distance) }

/-- `Editor::insert` (main.rs): splice at `head`, advance `head` by the byte
length, collapse the selection, mark modified.  The main.rs variant leaves
`desired_column` untouched. -/
def Editor.insert (e : Editor) (s : Rope) : Editor :=
  { e with
    text := insertGs e.text e.head s
    head := e.head + sumLen s
    anchor := e.head + sumLen s
    modified := true }

/-- `Editor::delete` (main.rs): remove the selected byte range, collapse both
ends to its start, mark modified. -/
def Editor.delete (e : Editor) : Editor :=
  let s := min e.anchor e.head
  let t := max e.anchor e.head
  { e with text := delBytes e.text s t, head := s, anchor := s, modified := true }

/-- `Editor::delete_before` (main.rs): remove the grapheme cluster ending at
`head` (no-op at the buffer start). -/
def Editor.delete_before (e : Editor) : Editor :=
  match (graphemesIn e.text 0 e.head).getLast? with
  | some g =>
    let s := e.head - g.len
    { e with
      text := delBytes e.text s e.head
      head := s
      anchor := s
      modified := true }
  | none => e

/-- `Editor::save`: persistence is the IO collaborator; a successful write
clears the modified flag when a path is associated, otherwise it is a no-op. -/
def Editor.save (e : Editor) : Editor :=
  if e.path.isSome then { e with modified := false } else e

/-- `Editor::extend_to` from `src/editor.rs`: backward selections move `head`
to the offset, forward ones to the ceil boundary one past it (so the grapheme
at the offset stays covered); the desired column is recomputed. -/
def Editor.extend_to (e : Editor) (byte_offset : Nat) : Editor :=
  let h := if e.is_backward then byte_offset
           else ceil_grapheme_boundary e.text (byte_offset + 1)
  { e with
    head := h
    desired_column := some (sliceWidth e.text (byteOfLine e.text (lineOfByte e.text h)) h) }

/-- `Editor::move_to` from `src/editor.rs` — the forward-caret convention:
extend to the clicked offset, reduce, step `head` back one grapheme, flip
forward. -/
def Editor.move_to (e : Editor) (byte_offset : Nat) : Editor :=
  (((e.extend_to byte_offset).reduce).extend_left 1).flip_forward

/-! ### The command interpreter (`Editor::execute_command`) -/

/-- Decimal digit parse used to model the exit-code argument. -/
def digitsVal : List Char → Option Nat
  | [] => none
  | cs => go cs 0
where
  go : List Char → Nat → Option Nat
    | [], acc => some acc
    | c :: cs, acc => if c.isDigit then go cs (acc * 10 + (c.toNat - 48)) else none

/-- The `u8` value parser of the exit-code argument (clap collaborator):
a decimal number between 0 and 255. -/
def parseU8 (s : String) : Option Nat :=
  match digitsVal s.data with
  | some n => if n ≤ 255 then some n else none
  | none => none

/-- Quoting state of the word splitter. -/
inductive SwMode where
  | plain
  | single
  | double
deriving DecidableEq

/-- The POSIX-style word splitter of the `shellwords` collaborator:
whitespace-separated words with single/double quoting and backslash escapes;
`none` on a trailing escape or unmatched quote. -/
def swGo : List Char → SwMode → Option (List Char) → List String → Option (List String)
  | [], SwMode.plain, none, out => some out.reverse
  | [], SwMode.plain, some w, out => some ((String.mk w.reverse) :: out).reverse
  | [], SwMode.single, _, _ => none
  | [], SwMode.double, _, _ => none
  | c :: cs, SwMode.plain, acc, out =>
    if c = ' ' ∨ c = '\t' ∨ c = '\n' then
      match acc with
      | none => swGo cs SwMode.plain none out
      | some w => swGo cs SwMode.plain none (String.mk w.reverse :: out)
    else if c = Char.ofNat 39 then swGo cs SwMode.single (some (acc.getD [])) out
    else if c = '"' then swGo cs SwMode.double (some (acc.getD [])) out
    else if c = '\\' then
      match cs with
      | [] => none
      | d :: ds => swGo ds SwMode.plain (some (d :: acc.getD [])) out
    else swGo cs SwMode.plain (some (c :: acc.getD [])) out
  | c :: cs, SwMode.single, acc, out =>
    if c = Char.ofNat 39 then swGo cs SwMode.plain acc out
    else swGo cs SwMode.single (some (c :: acc.getD [])) out
  | c :: cs, SwMode.double, acc, out =>
    if c = '"' then swGo cs SwMode.plain acc out
    else if c = '\\' then
      match cs with
      | [] => none
      | d :: ds => swGo ds SwMode.double (some (d :: acc.getD [])) out
    else swGo cs SwMode.double (some (c :: acc.getD [])) out

/-- `shellwords::split` (external collaborator). -/
def shellwordsSplit (s : String) : Option (List String) :=
  swGo s.data SwMode.plain none []

/-- The parsed command grammar (`enum Command` in `execute_command`). -/
inductive Command where
  | echo (error : Bool) (message : List String)
  | write
  | quit (exit_code : Option Nat)
  | quitForce (exit_code : Option Nat)
  | writeQuit (exit_code : Option Nat)
deriving DecidableEq

/-- Rendered clap failure when no subcommand is given (multi-line, as the
clap collaborator renders it). -/
def missingSubcommandMsg : String :=
  "error: blue requires a subcommand but one was not provided" ++
  "\n\nUsage: blue <COMMAND>\n\nFor more information, try --help.\n"

/-- Rendered clap failure for an unknown verb. -/
def unrecognizedMsg (v : String) : String :=
  "error: unrecognized subcommand " ++ v ++
  "\n\nUsage: blue <COMMAND>\n\nFor more information, try --help.\n"

/-- Rendered clap failure for an argument that cannot be parsed as `u8`. -/
def invalidValueMsg (s : String) : String :=
  "error: invalid value " ++ s ++ " for [EXIT_CODE]" ++
  "\n\nFor more information, try --help.\n"

/-- Rendered clap failure for a surplus argument. -/
def unexpectedArgMsg (a : String) : String :=
  "error: unexpected argument " ++ a ++ " found" ++
  "\n\nUsage: blue <COMMAND>\n\nFor more information, try --help.\n"

/-- Does the word start with a double dash (a long flag for clap)? -/
def isLongFlag (s : String) : Bool :=
  match s.data with
  | '-' :: '-' :: _ :: _ => true
  | _ => false

/-- Parse the optional exit-code argument of the quit-family verbs. -/
def parseExitArg (mk : Option Nat → Command) : List String → Except String Command
  | [] => Except.ok (mk none)
  | [s] =>
    match parseU8 s with
    | some n => Except.ok (mk (some n))
    | none => Except.error (invalidValueMsg s)
  | _ :: s :: _ => Except.error (unexpectedArgMsg s)

/-- `Command::try_parse_from` (clap collaborator) applied after the implicit
program name: fixed verb grammar with aliases, `--error` flag for `echo`,
optional small-integer code for the quit family. -/
def clapParse : List String → Except String Command
  | [] => Except.error missingSubcommandMsg
  | verb :: rest =>
    if verb = "echo" then
      if rest.any (fun a => isLongFlag a ∧ a ≠ "--error") then
        Except.error (unexpectedArgMsg (rest.filter (fun a => isLongFlag a ∧ a ≠ "--error")).headI)
      else
        Except.ok (Command.echo (rest.contains "--error") (rest.filter (fun a => a ≠ "--error")))
    else if verb = "write" ∨ verb = "w" then
      match rest with
      | [] => Except.ok Command.write
      | a :: _ => Except.error (unexpectedArgMsg a)
    else if verb = "quit" ∨ verb = "q" then parseExitArg Command.quit rest
    else if verb = "quit!" ∨ verb = "q!" then parseExitArg Command.quitForce rest
    else if verb = "write-quit" ∨ verb = "wq" then parseExitArg Command.writeQuit rest
    else Except.error (unrecognizedMsg verb)

/-- `error.strip_prefix("error: ")` with fallback to the whole message, as in
main.rs. -/
def stripErrorTag (s : String) : String :=
  match s.data with
  | 'e' :: 'r' :: 'r' :: 'o' :: 'r' :: ':' :: ' ' :: rest => String.mk rest
  | l => String.mk l

/-- First line of a message (`.lines().next()`), as editor.rs keeps it. -/
def firstLine (s : String) : String :=
  String.mk (s.data.takeWhile (fun c => c ≠ '\n'))

/-- Join words with single spaces (`message.join(" ")`). -/
def joinSpaces : List String → String
  | [] => ""
  | [w] => w
  | w :: ws => w ++ " " ++ joinSpaces ws

/-- Reset the command-line sub-editor and return to Normal mode (the cleanup
main.rs performs on every path out of `execute_command`). -/
def Editor.commandCleanup (e : Editor) : Editor :=
  { e with command := "", command_cursor := 0, mode := Mode.normal }

/-- The main.rs `execute_command` continuation after successful tokenization:
parse with clap and apply the command.  Note that main.rs passes an empty
token list straight to the parser, and that it stores the whole parse failure
text (only the leading error tag stripped). -/
def Editor.runTokens (e : Editor) (args : List String) : Editor :=
  match clapParse args with
  | Except.error err =>
    ({ e with message := some (Status.error (stripErrorTag err)) }).commandCleanup
  | Except.ok c =>
    let e' :=
      match c with
      | Command.echo err msg =>
        if err then { e with message := some (Status.error (joinSpaces msg)) }
        else { e with message := some (Status.ok (joinSpaces msg)) }
      | Command.write => e.save
      | Command.quit code =>
        if e.modified then { e with message := some (Status.error "Unsaved changes") }
        else { e with exit_code := some (code.getD 0) }
      | Command.quitForce code => { e with exit_code := some (code.getD 0) }
      | Command.writeQuit code => { e.save with exit_code := some (code.getD 0) }
    e'.commandCleanup

/-- `Editor::execute_command` from `src/main.rs`: tokenize the command line
with shellwords, then parse and run. -/
def Editor.execute_command (e : Editor) : Editor :=
  match shellwordsSplit e.command with
  | none => ({ e with message := some (Status.error "Invalid command") }).commandCleanup
  | some args => e.runTokens args

/-! ### Screen areas, position mapping and the update dispatcher -/

/-- A terminal cell rectangle (ratatui `Rect`). -/
structure Rect where
  x : Nat
  y : Nat
  width : Nat
  height : Nat
deriving DecidableEq, Repr

/-- A terminal cell position (ratatui `Position`). -/
structure Pos where
  x : Nat
  y : Nat
deriving DecidableEq, Repr

/-- `Rect::contains`. -/
def Rect.containsPos (r : Rect) (p : Pos) : Bool :=
  r.x ≤ p.x ∧ p.x < r.x + r.width ∧ r.y ≤ p.y ∧ p.y < r.y + r.height

/-- Fuel-based base-10 logarithm (`u32::ilog10`). -/
def ilog10Aux : Nat → Nat → Nat
  | 0, _ => 0
  | f + 1, n => if n < 10 then 0 else 1 + ilog10Aux f (n / 10)

/-- `u32::ilog10` for positive inputs. -/
def ilog10 (n : Nat) : Nat := ilog10Aux n n

/-- The three screen regions. -/
structure Areas where
  status_bar : Rect
  line_numbers : Rect
  text : Rect

/-- Modelled from the spec: `Areas::new` uses the ratatui layout collaborator
(`Layout`, absent from the embedded sources as a renderer concern) to stack a
one-row status bar above a line-number gutter and the text area; the gutter
width is the line-number digit count (at least two) plus one. -/
def areasNew (R : Rope) (area : Rect) : Areas :=
  let n := lineLen R
  let digits := 1 + ilog10 (max 1 n)
  let w := max 2 digits + 1
  let sbh := min 1 area.height
  let lnw := min w area.width
  { status_bar := ⟨area.x, area.y, area.width, sbh⟩
    line_numbers := ⟨area.x, area.y + sbh, lnw, area.height - sbh⟩
    text := ⟨area.x + lnw, area.y + sbh, area.width - lnw, area.height - sbh⟩ }

/-- `position_to_byte_offset` from `src/main.rs`: invert the rendering map;
rows past the last line resolve to end of buffer, columns past a line end to
that line's end. -/
def position_to_byte_offset (R : Rope) (vertical_scroll : Nat) (area : Rect) (p : Pos) :
    Option Nat :=
  if area.containsPos p then
    let target_column := p.x - area.x
    let row := (p.y - area.y) + vertical_scroll
    if lineLen R ≤ row then some (byteLen R)
    else some (columnWalk (lineContent R row) (byteOfLine R row) 0 target_column)
  else none

/-- Key modifier combinations the dispatcher distinguishes. -/
inductive Mods where
  | none
  | shift
  | ctrl
  | alt
  | shiftAlt
deriving DecidableEq, Repr

/-- Key codes the dispatcher distinguishes. -/
inductive KeyCode where
  | char (c : Char)
  | tab
  | enter
  | backspace
  | esc
  | left
  | right
  | other
deriving DecidableEq, Repr

/-- Mouse event kinds the dispatcher distinguishes. -/
inductive MouseKind where
  | scrollUp
  | scrollDown
  | downLeft
  | downRight
  | dragLeft
  | dragRight
  | otherKind
deriving DecidableEq, Repr

/-- A decoded input event (the input collaborator; resize events never reach
the update step: the main loop redraws and continues). -/
inductive Event where
  | key (m : Mods) (c : KeyCode)
  | mouse (k : MouseKind) (column : Nat) (row : Nat)
  | otherEvent
deriving DecidableEq, Repr

/-- Modelled from the spec: per-character display width of the width
collaborator for characters typed in Insert mode (tab-aware; ordinary
characters occupy one cell). -/
def charWidth (c : Char) : Nat := if c = '\t' then 8 else 1

/-- The grapheme cluster of a single typed character. -/
def charGrapheme (c : Char) : Grapheme := ⟨c.utf8Size, charWidth c, c = '\n'⟩

/-- Byte length of the command-line buffer. -/
def strByteLen (s : String) : Nat := (s.data.map Char.utf8Size).sum

/-- Insert a character into the command line at a byte offset (the command
line is edited per character; its segmentation is modelled per character). -/
def strInsertAt (s : String) (o : Nat) (c : Char) : String :=
  String.mk (go s.data o)
where
  go : List Char → Nat → List Char
    | l, 0 => c :: l
    | [], _ + 1 => [c]
    | d :: l, o + 1 => d :: go l (o + 1 - d.utf8Size)

/-- The character of the command line ending at byte offset `o`, with its
start offset. -/
def strCharBefore (s : String) (o : Nat) : Option (Nat × Char) :=
  go s.data 0 none
where
  go : List Char → Nat → Option (Nat × Char) → Option (Nat × Char)
    | [], _, best => best
    | c :: cs, pos, best =>
      if pos + c.utf8Size ≤ o then go cs (pos + c.utf8Size) (some (pos, c))
      else best

/-- Remove the character of the command line spanning `[a, b)`. -/
def strDeleteRange (s : String) (a b : Nat) : String :=
  String.mk (go s.data 0)
where
  go : List Char → Nat → List Char
    | [], _ => []
    | c :: cs, pos =>
      if a ≤ pos ∧ pos < b then go cs (pos + c.utf8Size)
      else c :: go cs (pos + c.utf8Size)

/-- The character of the command line starting at byte offset `o`. -/
def strCharAt (s : String) (o : Nat) : Option Char :=
  go s.data 0
where
  go : List Char → Nat → Option Char
    | [], _ => none
    | c :: cs, pos => if pos = o then some c else go cs (pos + c.utf8Size)

/-- The Normal-mode key dispatch of `update` (`src/main.rs`); `none` is the
`panic!()` the source binds to Ctrl+P. -/
def updateNormalKey (e : Editor) (tHeight : Nat) (m : Mods) (c : KeyCode) : Option Editor :=
  match c with
  | KeyCode.char ch =>
    if m = Mods.ctrl ∧ ch = 'p' then none
    else if m = Mods.none ∧ ch = 'h' then some (e.move_left 1)
    else if m = Mods.none ∧ ch = 'l' then some (e.move_right 1)
    else if m = Mods.none ∧ ch = 'k' then some (e.move_up 1)
    else if m = Mods.none ∧ ch = 'j' then some (e.move_down 1)
    else if m = Mods.shift ∧ (ch = 'h' ∨ ch = 'H') then some (e.extend_left 1)
    else if m = Mods.shift ∧ (ch = 'l' ∨ ch = 'L') then some (e.extend_right 1)
    else if m = Mods.shift ∧ (ch = 'k' ∨ ch = 'K') then some (e.extend_up 1)
    else if m = Mods.shift ∧ (ch = 'j' ∨ ch = 'J') then some (e.extend_down 1)
    else if m = Mods.none ∧ ch = ';' then some e.reduce
    else if m = Mods.alt ∧ ch = ';' then some e.flip
    else if m = Mods.shiftAlt ∧ ch = ';' then some e.flip_forward
    else if m = Mods.none ∧ ch = 'd' then some e.delete
    else if m = Mods.none ∧ ch = 'c' then some { e.delete with mode := Mode.insert }
    else if m = Mods.none ∧ ch = 'i' then some { e.reduce with mode := Mode.insert }
    else if m = Mods.none ∧ ch = ':' then
      some { e with command := "", command_cursor := 0, mode := Mode.command }
    else if m = Mods.ctrl ∧ ch = 'u' then some (e.scroll_up ((tHeight - 1) / 2))
    else if m = Mods.ctrl ∧ ch = 'd' then some (e.scroll_down ((tHeight - 1) / 2))
    else if m = Mods.ctrl ∧ ch = 'b' then some (e.scroll_up (tHeight - 2))
    else if m = Mods.ctrl ∧ ch = 'f' then some (e.scroll_down (tHeight - 2))
    else if m = Mods.none ∧ ch = 'g' then some { e with mode := Mode.goto }
    else some e
  | _ => some e

/-- The Goto-mode key dispatch of `update`: one key, then back to Normal;
unrecognized keys set the "Unknown key" error. -/
def updateGotoKey (e : Editor) (m : Mods) (c : KeyCode) : Option Editor :=
  let unknown : Option Editor :=
    some { e with message := some (Status.error "Unknown key"), mode := Mode.normal }
  match c with
  | KeyCode.char ch =>
    if m = Mods.none ∧ ch = 'k' then
      some { e with anchor := 0, head := 0, desired_column := none, mode := Mode.normal }
    else if m = Mods.none ∧ ch = 'h' then some { e.move_line_start with mode := Mode.normal }
    else if m = Mods.none ∧ ch = 'l' then
      (e.move_line_end).map (fun x => { x with mode := Mode.normal })
    else if m = Mods.shift ∧ (ch = 'h' ∨ ch = 'H') then
      some { e.extend_line_start with mode := Mode.normal }
    else if m = Mods.shift ∧ (ch = 'l' ∨ ch = 'L') then
      (e.extend_line_end).map (fun x => { x with mode := Mode.normal })
    else unknown
  | KeyCode.esc => if m = Mods.none then some { e with mode := Mode.normal } else unknown
  | _ => unknown

/-- The Insert-mode key dispatch of `update`. -/
def updateInsertKey (e : Editor) (m : Mods) (c : KeyCode) : Option Editor :=
  match c with
  | KeyCode.char ch =>
    if m = Mods.ctrl ∧ ch = 'a' then some e.move_line_start
    else if m = Mods.ctrl ∧ ch = 'e' then e.move_line_end
    else if m = Mods.ctrl ∧ ch = 'b' then some (e.move_left 1)
    else if m = Mods.ctrl ∧ ch = 'f' then some (e.move_right 1)
    else if m = Mods.none ∨ m = Mods.shift then some (e.insert [charGrapheme ch])
    else some e
  | KeyCode.tab =>
    if m = Mods.none then some (e.insert [charGrapheme '\t']) else some e
  | KeyCode.enter =>
    if m = Mods.none then some { e.insert [charGrapheme '\n'] with desired_column := none }
    else some e
  | KeyCode.backspace => if m = Mods.none then some e.delete_before else some e
  | KeyCode.esc => if m = Mods.none then some { e with mode := Mode.normal } else some e
  | _ => some e

/-- The Command-mode key dispatch of `update` (the command line is edited per
character; its grapheme segmentation is modelled at character granularity). -/
def updateCommandKey (e : Editor) (m : Mods) (c : KeyCode) : Option Editor :=
  match c with
  | KeyCode.char ch =>
    if m = Mods.ctrl ∧ ch = 'a' then some { e with command_cursor := 0 }
    else if m = Mods.ctrl ∧ ch = 'e' then some { e with command_cursor := strByteLen e.command }
    else if m = Mods.ctrl ∧ ch = 'b' then
      some { e with command_cursor :=
        ((strCharBefore e.command e.command_cursor).map Prod.fst).getD e.command_cursor }
    else if m = Mods.ctrl ∧ ch = 'f' then
      some { e with command_cursor :=
        match strCharAt e.command e.command_cursor with
        | some d => e.command_cursor + d.utf8Size
        | none => e.command_cursor }
    else if m = Mods.none ∨ m = Mods.shift then
      some { e with command := strInsertAt e.command e.command_cursor ch
                    command_cursor := e.command_cursor + ch.utf8Size }
    else some e
  | KeyCode.left =>
    if m = Mods.none then
      some { e with command_cursor :=
        ((strCharBefore e.command e.command_cursor).map Prod.fst).getD e.command_cursor }
    else some e
  | KeyCode.right =>
    if m = Mods.none then
      some { e with command_cursor :=
        match strCharAt e.command e.command_cursor with
        | some d => e.command_cursor + d.utf8Size
        | none => e.command_cursor }
    else some e
  | KeyCode.backspace =>
    if m = Mods.none then
      if 0 < e.command_cursor then
        match strCharBefore e.command e.command_cursor with
        | some (p, _) =>
          some { e with command := strDeleteRange e.command p e.command_cursor
                        command_cursor := p }
        | none => some e
      else if e.command = "" then
        some { e with command := "", command_cursor := 0, mode := Mode.normal }
      else some e
    else some e
  | KeyCode.enter => if m = Mods.none then some e.execute_command else some e
  | KeyCode.esc =>
    if m = Mods.none then some { e with command := "", command_cursor := 0, mode := Mode.normal }
    else some e
  | _ => some e

/-- The mouse dispatch of `update`: wheel scrolling, primary-press caret
placement, and head-only extension for secondary press or drag. -/
def updateMouse (e : Editor) (textArea : Rect) (k : MouseKind) (column row : Nat) :
    Editor :=
  match k with
  | MouseKind.scrollUp => e.scroll_up 3
  | MouseKind.scrollDown => e.scroll_down 3
  | MouseKind.downLeft =>
    match position_to_byte_offset e.text e.vertical_scroll textArea ⟨column, row⟩ with
    | some byte_offset =>
      let h := if e.is_backward then byte_offset
               else ceil_grapheme_boundary e.text (byte_offset + 1)
      { e with head := h, anchor := byte_offset, desired_column := none }
    | none => e
  | MouseKind.downRight | MouseKind.dragLeft | MouseKind.dragRight =>
    match position_to_byte_offset e.text e.vertical_scroll textArea ⟨column, row⟩ with
    | some byte_offset =>
      let h := if e.is_backward then byte_offset
               else ceil_grapheme_boundary e.text (byte_offset + 1)
      { e with head := h, desired_column := none }
    | none => e
  | MouseKind.otherKind => e

/-- `update` from `src/main.rs`: clear the status message, then dispatch on
the event and the current mode.  `none` models a panic. -/
def update (e : Editor) (area : Rect) (ev : Event) : Option Editor :=
  let e := { e with message := none }
  let areas := areasNew e.text area
  match ev with
  | Event.key m c =>
    match e.mode with
    | Mode.normal => updateNormalKey e areas.text.height m c
    | Mode.goto => updateGotoKey e m c
    | Mode.insert => updateInsertKey e m c
    | Mode.command => updateCommandKey e m c
  | Event.mouse k column row => some (updateMouse e areas.text k column row)
  | Event.otherEvent => some e

/-! ### Concrete fixtures -/

/-- A one-cell ASCII grapheme. -/
def ch1 : Grapheme := ⟨1, 1, false⟩

/-- A newline grapheme. -/
def nlG : Grapheme := ⟨1, 1, true⟩

/-- The buffer `"ab\ncde"`. -/
def ropeAbCde : Rope := [ch1, ch1, nlG, ch1, ch1, ch1]

/-- The buffer `"a\nb"`. -/
def ropeAb2 : Rope := [ch1, nlG, ch1]

/-- The buffer `"ab"`. -/
def ropeAb : Rope := [ch1, ch1]

/-- The buffer `"a\n"`. -/
def ropeANl : Rope := [ch1, nlG]

/-- An 80x24 screen. -/
def screen : Rect := ⟨0, 0, 80, 24⟩

/-! ### Boundary lemmas -/

theorem isB_zero (R : Rope) : isB R 0 = true := by
  cases R <;> simp [isB]

theorem isB_byteLen (R : Rope) : isB R (byteLen R) = true := by
  induction R with
  | nil => simp [isB, byteLen, sumLen]
  | cons g gs ih =>
    simp only [byteLen, sumLen, isB]
    by_cases h0 : g.len + sumLen gs = 0
    · simp [h0]
    · have hlt : ¬ g.len + sumLen gs < g.len := by omega
      simp only [h0, if_false, hlt]
      have : g.len + sumLen gs - g.len = sumLen gs := by omega
      simpa [this] using ih

theorem isB_le_byteLen {R : Rope} {o : Nat} (h : isB R o = true) : o ≤ byteLen R := by
  induction R generalizing o with
  | nil => simp [isB] at h; simp [h, byteLen, sumLen]
  | cons g gs ih =>
    simp only [isB] at h
    by_cases h0 : o = 0
    · simp [h0]
    · simp only [h0, if_false] at h
      by_cases hlt : o < g.len
      · simp [hlt] at h
      · simp only [hlt, if_false] at h
        have := ih h
        simp only [byteLen, sumLen] at *
        omega

theorem prevScan_isB (R : Rope) (o : Nat) : isB R (prevScan R o) = true := by
  induction o with
  | zero => simpa [prevScan] using isB_zero R
  | succ o ih =>
    simp only [prevScan]
    by_cases h : isB R o
    · simpa [h]
    · simpa [h] using ih

theorem prevScan_le (R : Rope) (o : Nat) : prevScan R (o + 1) ≤ o := by
  induction o with
  | zero => simp [prevScan, isB_zero]
  | succ o ih =>
    simp only [prevScan]
    by_cases h : isB R (o + 1)
    · simp [h]
    · simp only [h, if_false]
      calc prevScan R (o + 1) ≤ o := ih
        _ ≤ o + 1 := by omega

theorem prevScan_maximal (R : Rope) {b o : Nat} (hb : isB R b = true) (hlt : b < o)
    (hgap : ∀ j, b < j → j < o → isB R j = false) : prevScan R o = b := by
  induction o with
  | zero => omega
  | succ o ih =>
    simp only [prevScan]
    by_cases he : o = b
    · subst he; simp [hb]
    · have hbo : b < o := by omega
      have : isB R o = false := hgap o hbo (by omega)
      simp only [this, Bool.false_eq_true, if_false]
      exact ih hbo (fun j h1 h2 => hgap j h1 (by omega))

theorem nextAux_ge (R : Rope) (fuel o : Nat) : o ≤ nextAux R fuel o := by
  induction fuel generalizing o with
  | zero => simp [nextAux]
  | succ f ih =>
    simp only [nextAux]
    by_cases h : isB R (o + 1)
    · simp only [h, if_true]; omega
    · simp only [h, Bool.false_eq_true, if_false]
      have := ih (o + 1)
      omega

theorem nextAux_gt (R : Rope) (fuel o : Nat) : o < nextAux R (fuel + 1) o := by
  simp only [nextAux]
  by_cases h : isB R (o + 1)
  · simp only [h, if_true]; omega
  · simp only [h, Bool.false_eq_true, if_false]
    have := nextAux_ge R fuel (o + 1)
    omega

theorem nextAux_le (R : Rope) (fuel o : Nat) : nextAux R fuel o ≤ o + fuel := by
  induction fuel generalizing o with
  | zero => simp [nextAux]
  | succ f ih =>
    simp only [nextAux]
    by_cases h : isB R (o + 1)
    · simp only [h, if_true]; omega
    · simp only [h, Bool.false_eq_true, if_false]
      have := ih (o + 1)
      omega

theorem nextAux_isB (R : Rope) (fuel o : Nat) (h : isB R (o + fuel) = true) :
    isB R (nextAux R fuel o) = true := by
  induction fuel generalizing o with
  | zero => simpa [nextAux] using h
  | succ f ih =>
    simp only [nextAux]
    by_cases hb : isB R (o + 1)
    · simpa [hb]
    · simp only [hb, Bool.false_eq_true, if_false]
      refine ih (o + 1) ?_
      have e : o + 1 + f = o + (f + 1) := by omega
      rw [e]
      exact h

theorem nextAux_gap (R : Rope) (fuel o : Nat) :
    ∀ j, o < j → j < nextAux R fuel o → isB R j = false := by
  induction fuel generalizing o with
  | zero => intro j h1 h2; simp [nextAux] at h2; omega
  | succ f ih =>
    intro j h1 h2
    simp only [nextAux] at h2
    by_cases hb : isB R (o + 1)
    · simp [hb] at h2; omega
    · simp only [hb, Bool.false_eq_true, if_false] at h2
      by_cases hj : j = o + 1
      · simpa [hj] using hb
      · exact ih (o + 1) j (by omega) h2

theorem floor_le (R : Rope) (o : Nat) : floor_grapheme_boundary R o ≤ o := by
  simp only [floor_grapheme_boundary]
  by_cases h1 : byteLen R < o
  · simp [h1]; omega
  · simp only [h1, if_false]
    by_cases h2 : isB R o
    · simp [h2]
    · simp only [h2, Bool.false_eq_true, if_false, prev_grapheme_boundary]
      have h0 : o ≠ 0 := fun h => by simp [h, isB_zero] at h2
      simp only [h0, if_false, h1, Option.getD_some]
      cases o with
      | zero => omega
      | succ o => have := prevScan_le R o; omega

theorem le_ceil (R : Rope) {o : Nat} (h : o ≤ byteLen R) : o ≤ ceil_grapheme_boundary R o := by
  simp only [ceil_grapheme_boundary]
  have h1 : ¬ byteLen R < o := by omega
  simp only [h1, if_false]
  by_cases h2 : isB R o
  · simp [h2]
  · simp only [h2, Bool.false_eq_true, if_false, next_grapheme_boundary]
    have ho : o ≠ byteLen R := fun he => by simp [he, isB_byteLen] at h2
    have h3 : ¬ byteLen R ≤ o := by omega
    simp only [h3, if_false, Option.getD_some]
    exact nextAux_ge R _ o

theorem floor_isB (R : Rope) (o : Nat) : isB R (floor_grapheme_boundary R o) = true := by
  simp only [floor_grapheme_boundary]
  by_cases h1 : byteLen R < o
  · simp [h1, isB_byteLen]
  · simp only [h1, if_false]
    by_cases h2 : isB R o
    · simpa [h2]
    · simp only [h2, Bool.false_eq_true, if_false, prev_grapheme_boundary]
      have h0 : o ≠ 0 := fun h => by simp [h, isB_zero] at h2
      simp only [h0, if_false, h1, Option.getD_some]
      exact prevScan_isB R o

theorem floor_of_isB (R : Rope) {o : Nat} (h : isB R o = true) :
    floor_grapheme_boundary R o = o := by
  have := isB_le_byteLen h
  simp [floor_grapheme_boundary, h, show ¬ byteLen R < o by omega]

theorem ceil_of_isB (R : Rope) {o : Nat} (h : isB R o = true) :
    ceil_grapheme_boundary R o = o := by
  have := isB_le_byteLen h
  simp [ceil_grapheme_boundary, h, show ¬ byteLen R < o by omega]

theorem floor_idem (R : Rope) (o : Nat) :
    floor_grapheme_boundary R (floor_grapheme_boundary R o) = floor_grapheme_boundary R o :=
  floor_of_isB R (floor_isB R o)

theorem floor_clamp (R : Rope) {o : Nat} (h : byteLen R < o) :
    floor_grapheme_boundary R o = byteLen R := by
  simp [floor_grapheme_boundary, h]

theorem ceil_clamp (R : Rope) {o : Nat} (h : byteLen R < o) :
    ceil_grapheme_boundary R o = byteLen R := by
  simp [ceil_grapheme_boundary, h]

theorem ceil_le_byteLen (R : Rope) (o : Nat) : ceil_grapheme_boundary R o ≤ byteLen R := by
  simp only [ceil_grapheme_boundary]
  by_cases h1 : byteLen R < o
  · simp [h1]
  · simp only [h1, if_false]
    by_cases h2 : isB R o
    · simp [h2]; omega
    · simp only [h2, Bool.false_eq_true, if_false, next_grapheme_boundary]
      have ho : o ≠ byteLen R := fun he => by simp [he, isB_byteLen] at h2
      have h3 : ¬ byteLen R ≤ o := by omega
      simp only [h3, if_false, Option.getD_some]
      have := nextAux_le R (byteLen R - o) o
      omega

theorem ceil_isB (R : Rope) (o : Nat) : isB R (ceil_grapheme_boundary R o) = true := by
  simp only [ceil_grapheme_boundary]
  by_cases h1 : byteLen R < o
  · simp [h1, isB_byteLen]
  · simp only [h1, if_false]
    by_cases h2 : isB R o
    · simpa [h2]
    · simp only [h2, Bool.false_eq_true, if_false, next_grapheme_boundary]
      have ho : o ≠ byteLen R := fun he => by simp [he, isB_byteLen] at h2
      have h3 : ¬ byteLen R ≤ o := by omega
      simp only [h3, if_false, Option.getD_some]
      exact nextAux_isB R _ o (by
        have : o + (byteLen R - o) = byteLen R := by omega
        rw [this]; exact isB_byteLen R)

/-! ### Prefix sums, lines and boundaries -/

theorem sumLen_append (a b : Rope) : sumLen (a ++ b) = sumLen a + sumLen b := by
  induction a with
  | nil => simp [sumLen]
  | cons g gs ih => simp [sumLen, ih]; omega

theorem sumWidth_append (a b : Rope) : sumWidth (a ++ b) = sumWidth a + sumWidth b := by
  induction a with
  | nil => simp [sumWidth]
  | cons g gs ih => simp [sumWidth, ih]; omega

theorem sumLen_take_le (R : Rope) (k : Nat) : sumLen (R.take k) ≤ sumLen R := by
  induction R generalizing k with
  | nil => simp [sumLen]
  | cons g gs ih =>
    cases k with
    | zero => simp [sumLen]
    | succ k => simp only [List.take_succ_cons, sumLen]; have := ih k; omega

theorem sumLen_take_add (R : Rope) (m n : Nat) :
    sumLen (R.take (m + n)) = sumLen (R.take m) + sumLen ((R.drop m).take n) := by
  rw [List.take_add, sumLen_append]

theorem isB_sumLen_take (R : Rope) (k : Nat) : isB R (sumLen (R.take k)) = true := by
  induction R generalizing k with
  | nil => simp [sumLen, isB]
  | cons g gs ih =>
    cases k with
    | zero => simpa [sumLen] using isB_zero (Grapheme.mk g.len g.width g.nl :: gs)
    | succ k =>
      simp only [List.take_succ_cons, sumLen, isB]
      by_cases h0 : g.len + sumLen (gs.take k) = 0
      · simp [h0]
      · have hlt : ¬ g.len + sumLen (gs.take k) < g.len := by omega
        simp only [h0, if_false, hlt]
        have e : g.len + sumLen (gs.take k) - g.len = sumLen (gs.take k) := by omega
        simpa [e] using ih k

theorem restFromLine_decomp (R : Rope) (i : Nat) :
    ∃ K, K ≤ R.length ∧ restFromLine R i = R.drop K ∧ byteOfLine R i = sumLen (R.take K) := by
  induction R generalizing i with
  | nil =>
    refine ⟨0, by simp, ?_, by simp [byteOfLine, sumLen]⟩
    cases i <;> simp [restFromLine]
  | cons g gs ih =>
    cases i with
    | zero => exact ⟨0, by simp [restFromLine, byteOfLine, sumLen]⟩
    | succ i =>
      obtain ⟨K, hK, hrest, hbyte⟩ := ih (if g.nl then i else i + 1)
      refine ⟨K + 1, by simpa using hK, ?_, ?_⟩
      · simpa [restFromLine] using hrest
      · simp [byteOfLine, List.take_succ_cons, sumLen, hbyte]

theorem length_takeWhile_le {α : Type} (p : α → Bool) (l : List α) :
    (l.takeWhile p).length ≤ l.length := by
  induction l with
  | nil => simp
  | cons x xs ih =>
    by_cases h : p x
    · simp [List.takeWhile, h]; omega
    · simp [List.takeWhile, h]

theorem takeWhile_as_take {α : Type} (p : α → Bool) (l : List α) :
    l.takeWhile p = l.take (l.takeWhile p).length := by
  induction l with
  | nil => simp
  | cons x xs ih =>
    by_cases h : p x
    · simp [List.takeWhile, h, List.take_succ_cons]
      exact ih
    · simp [List.takeWhile, h]

theorem take_of_takeWhile_eq_take {α : Type} (p : α → Bool) (l : List α) {k : Nat}
    (hk : k ≤ (l.takeWhile p).length) : (l.takeWhile p).take k = l.take k := by
  conv_lhs => rw [takeWhile_as_take]
  rw [List.take_take]
  congr 1
  omega

/-- A position a whole number of graphemes into a line is a boundary. -/
theorem isB_line_prefix (R : Rope) (i k : Nat) (hk : k ≤ (lineContent R i).length) :
    isB R (byteOfLine R i + sumLen ((lineContent R i).take k)) = true := by
  obtain ⟨K, hK, hrest, hbyte⟩ := restFromLine_decomp R i
  have hcontent : lineContent R i = (R.drop K).takeWhile (fun g => !g.nl) := by
    simp [lineContent, hrest]
  have htake : (lineContent R i).take k = (R.drop K).take k := by
    rw [hcontent]
    exact take_of_takeWhile_eq_take _ _ (by rw [← hcontent]; exact hk)
  rw [hbyte, htake, ← sumLen_take_add]
  exact isB_sumLen_take R (K + k)

/-- `graphemesIn` from a prefix-sum start offset reduces to the dropped list. -/
theorem graphemesIn_skip (R : Rope) (K m : Nat) (hwf : ∀ g ∈ R, 1 ≤ g.len) :
    graphemesIn R (sumLen (R.take K)) (sumLen (R.take K) + m) =
      graphemesIn (R.drop K) 0 m := by
  induction R generalizing K with
  | nil => simp [graphemesIn]
  | cons g gs ih =>
    cases K with
    | zero => simp [sumLen]
    | succ K =>
      have hg : 1 ≤ g.len := hwf g (by simp)
      simp only [List.take_succ_cons, sumLen, List.drop_succ_cons, graphemesIn]
      have h1 : g.len ≤ g.len + sumLen (gs.take K) := by omega
      simp only [h1, if_true]
      have e1 : g.len + sumLen (gs.take K) - g.len = sumLen (gs.take K) := by omega
      have e2 : g.len + sumLen (gs.take K) + m - g.len = sumLen (gs.take K) + m := by omega
      rw [e1, e2]
      exact ih K (fun x hx => hwf x (by simp [hx]))

/-- `graphemesIn` over an exact prefix-sum range is the prefix itself. -/
theorem graphemesIn_exact (R : Rope) (k : Nat) (hwf : ∀ g ∈ R, 1 ≤ g.len) :
    graphemesIn R 0 (sumLen (R.take k)) = R.take k := by
  induction R generalizing k with
  | nil => simp [graphemesIn]
  | cons g gs ih =>
    have hg : 1 ≤ g.len := hwf g (by simp)
    cases k with
    | zero =>
      simp only [List.take_zero, sumLen, graphemesIn]
      have h1 : ¬ g.len ≤ 0 := by omega
      simp [h1]
    | succ k =>
      simp only [List.take_succ_cons, sumLen, graphemesIn]
      have h1 : ¬ g.len ≤ 0 := by omega
      have h2 : g.len ≤ g.len + sumLen (gs.take k) := by omega
      simp only [h1, if_false, h2, if_true]
      have e : g.len + sumLen (gs.take k) - g.len = sumLen (gs.take k) := by omega
      rw [e, ih k (fun x hx => hwf x (by simp [hx]))]

/-- The display width of the byte slice from a line start to a whole number of
graphemes into that line is the sum of those graphemes' widths. -/
theorem sliceWidth_line_prefix (R : Rope) (i k : Nat) (hwf : ∀ g ∈ R, 1 ≤ g.len)
    (hk : k ≤ (lineContent R i).length) :
    sliceWidth R (byteOfLine R i) (byteOfLine R i + sumLen ((lineContent R i).take k)) =
      sumWidth ((lineContent R i).take k) := by
  obtain ⟨K, hK, hrest, hbyte⟩ := restFromLine_decomp R i
  have hcontent : lineContent R i = (R.drop K).takeWhile (fun g => !g.nl) := by
    simp [lineContent, hrest]
  have htake : (lineContent R i).take k = (R.drop K).take k := by
    rw [hcontent]
    exact take_of_takeWhile_eq_take _ _ (by rw [← hcontent]; exact hk)
  rw [sliceWidth, hbyte, htake, graphemesIn_skip R K _ hwf,
    graphemesIn_exact (R.drop K) k (fun x hx => hwf x (List.drop_subset K R hx))]

/-! ### Locating offsets on lines -/

/-- An offset within the first line's content is on line 0. -/
theorem lineOfByte_first (R : Rope) (o : Nat) (hwf : ∀ g ∈ R, 1 ≤ g.len)
    (h : o ≤ sumLen (R.takeWhile (fun g => !g.nl))) : lineOfByte R o = 0 := by
  induction R generalizing o with
  | nil => simp [lineOfByte]
  | cons g gs ih =>
    have hg : 1 ≤ g.len := hwf g (by simp)
    by_cases hnl : g.nl
    · have : o = 0 := by simpa [List.takeWhile, hnl, sumLen] using h
      simp [lineOfByte, this]
      omega
    · simp only [List.takeWhile, hnl, Bool.not_false, sumLen] at h
      simp only [lineOfByte, hnl, if_false]
      by_cases hlt : o < g.len
      · simp [hlt]
      · simp only [hlt, if_false]
        have := ih (o - g.len) (fun x hx => hwf x (by simp [hx])) (by omega)
        simpa [this]

/-- An offset between a line's start and the end of its content lies on that
line. -/
theorem lineOfByte_within (R : Rope) (i o : Nat) (hwf : ∀ g ∈ R, 1 ≤ g.len)
    (hi : i < lineLen R) (h1 : byteOfLine R i ≤ o)
    (h2 : o ≤ byteOfLine R i + sumLen (lineContent R i)) : lineOfByte R o = i := by
  induction R generalizing i o with
  | nil => simp [lineLen] at hi
  | cons g gs ih =>
    have hg : 1 ≤ g.len := hwf g (by simp)
    cases i with
    | zero =>
      simp only [byteOfLine, Nat.zero_add] at h2
      exact lineOfByte_first _ o hwf (by simpa [lineContent, restFromLine] using h2)
    | succ i =>
      simp only [byteOfLine] at h1 h2
      have ho : ¬ o < g.len := by omega
      simp only [lineOfByte, ho, if_false]
      have hrest : lineContent (g :: gs) (i + 1) = lineContent gs (if g.nl then i else i + 1) := by
        simp [lineContent, restFromLine]
      rw [hrest] at h2
      by_cases hnl : g.nl
      · simp only [hnl, if_true] at h1 h2 ⊢
        have := ih i (o - g.len) (fun x hx => hwf x (by simp [hx]))
          (by simp only [lineLen, hnl, if_true] at hi; omega) (by omega) (by omega)
        omega
      · simp only [hnl, if_false, Bool.false_eq_true] at h1 h2 ⊢
        have hi' : i + 1 < lineLen gs := by
          simp only [lineLen, hnl, Bool.false_eq_true, if_false] at hi
          omega
        have := ih (i + 1) (o - g.len) (fun x hx => hwf x (by simp [hx])) hi' (by omega) (by omega)
        omega

/-! ### Column-walk lemmas -/

theorem columnWalk_ge (gs : Rope) (off p d : Nat) : off ≤ columnWalk gs off p d := by
  induction gs generalizing off p with
  | nil => simp [columnWalk]
  | cons g tl ih =>
    simp only [columnWalk]
    by_cases h : d < p + g.width
    · simp [h]
    · simp only [h, if_false]
      have := ih (off + g.len) (p + g.width)
      omega

theorem columnWalk_prefix (gs : Rope) (off p d : Nat) :
    ∃ j, j ≤ gs.length ∧ columnWalk gs off p d = off + sumLen (gs.take j) := by
  induction gs generalizing off p with
  | nil => exact ⟨0, by simp [columnWalk, sumLen]⟩
  | cons g tl ih =>
    simp only [columnWalk]
    by_cases h : d < p + g.width
    · exact ⟨0, by simp [h, sumLen]⟩
    · simp only [h, if_false]
      obtain ⟨j, hj, he⟩ := ih (off + g.len) (p + g.width)
      refine ⟨j + 1, by simpa using hj, ?_⟩
      simp [he, List.take_succ_cons, sumLen]
      omega

theorem columnWalk_le (gs : Rope) (off p d : Nat) :
    columnWalk gs off p d ≤ off + sumLen gs := by
  obtain ⟨j, hj, he⟩ := columnWalk_prefix gs off p d
  rw [he]
  have := sumLen_take_le gs j
  omega

/-- Shifting the accumulated width and the target together does not change the
walk. -/
theorem columnWalk_shift (gs : Rope) (off p D : Nat) :
    columnWalk gs off p (p + D) = columnWalk gs off 0 D := by
  induction gs generalizing off p D with
  | nil => simp [columnWalk]
  | cons g tl ih =>
    simp only [columnWalk, Nat.zero_add]
    by_cases h : D < g.width
    · have h' : p + D < p + g.width := by omega
      simp [h, h']
    · have h' : ¬ p + D < p + g.width := by omega
      simp only [h, h', if_false]
      have e : p + D = (p + g.width) + (D - g.width) := by omega
      rw [e, ih]
      have e2 : D = g.width + (D - g.width) := by omega
      conv_rhs => rw [e2]
      rw [ih]

/-- Walking toward the exact width of a grapheme prefix lands at the end of
that prefix, provided widths are positive. -/
theorem columnWalk_exact (gs : Rope) (k off : Nat) (hk : k ≤ gs.length)
    (hw : ∀ g ∈ gs, 1 ≤ g.width) :
    columnWalk gs off 0 (sumWidth (gs.take k)) = off + sumLen (gs.take k) := by
  induction gs generalizing k off with
  | nil => simp [columnWalk, sumLen]
  | cons g tl ih =>
    have hg : 1 ≤ g.width := hw g (by simp)
    cases k with
    | zero =>
      simp only [List.take_zero, sumWidth, sumLen, columnWalk]
      split
      · omega
      · exfalso; omega
    | succ k =>
      simp only [List.take_succ_cons, sumWidth, sumLen, columnWalk]
      have h : ¬ g.width + sumWidth (tl.take k) < 0 + g.width := by omega
      simp only [h, if_false]
      have e : (0 : Nat) + g.width + (sumWidth (tl.take k)) = g.width + sumWidth (tl.take k) := by
        omega
      have e2 : g.width + sumWidth (tl.take k) = (0 + g.width) + sumWidth (tl.take k) := by omega
      rw [e2, columnWalk_shift, ih k (off + g.len) (by simpa using hk)
        (fun x hx => hw x (by simp [hx]))]
      omega

/-! ### The vertical round trip -/

/-- `o` is a whole number of graphemes into line `i`. -/
def OnLine (R : Rope) (i o : Nat) : Prop :=
  ∃ k, k ≤ (lineContent R i).length ∧ o = byteOfLine R i + sumLen ((lineContent R i).take k)

theorem onLine_walk (R : Rope) (i d : Nat) :
    OnLine R i (columnWalk (lineContent R i) (byteOfLine R i) 0 d) := by
  obtain ⟨j, hj, he⟩ := columnWalk_prefix (lineContent R i) (byteOfLine R i) 0 d
  exact ⟨j, hj, he⟩

theorem lineOfByte_of_onLine (R : Rope) {i o : Nat} (hwf : ∀ g ∈ R, 1 ≤ g.len)
    (hi : i < lineLen R) (h : OnLine R i o) : lineOfByte R o = i := by
  obtain ⟨k, hk, he⟩ := h
  refine lineOfByte_within R i o hwf hi (by omega) ?_
  have := sumLen_take_le (lineContent R i) k
  omega

theorem lineContent_subset (R : Rope) (i : Nat) : ∀ g ∈ lineContent R i, g ∈ R := by
  intro g hg
  obtain ⟨K, hK, hrest, _⟩ := restFromLine_decomp R i
  have h1 : g ∈ restFromLine R i := by
    have := takeWhile_as_take (fun g => !g.nl) (restFromLine R i)
    rw [lineContent, this] at hg
    exact List.take_subset _ _ hg
  rw [hrest] at h1
  exact List.drop_subset K R h1

/-- Loop invariant of `extend_down` once the desired column is cached: each
step moves to the walk position of the next line. -/
theorem extend_down_inv (D : Nat) :
    ∀ n (e : Editor) (i : Nat), (∀ g ∈ e.text, 1 ≤ g.len) → e.desired_column = some D →
      OnLine e.text i e.head → i + n < lineLen e.text →
      (e.extend_down n).text = e.text ∧ (e.extend_down n).desired_column = some D ∧
        OnLine e.text (i + n) (e.extend_down n).head := by
  intro n
  induction n with
  | zero => intro e i _ hd ho _; exact ⟨rfl, hd, by simpa [Editor.extend_down] using ho⟩
  | succ n ih =>
    intro e i hwf hd ho hn
    have hci : lineOfByte e.text e.head = i :=
      lineOfByte_of_onLine e.text hwf (by omega) ho
    have hguard : ¬ lineLen e.text ≤ i + 1 := by omega
    simp only [Editor.extend_down, hci, hguard, if_false, hd, Option.getD_some]
    have step := ih { e with
        desired_column := some D
        head := columnWalk (lineContent e.text (i + 1)) (byteOfLine e.text (i + 1)) 0 D }
      (i + 1) hwf rfl (onLine_walk e.text (i + 1) D)
      (by show i + 1 + n < lineLen e.text; omega)
    have e1 : i + 1 + n = i + (n + 1) := by omega
    rw [e1] at step
    exact step

/-- After `j ≥ 1` steps of `extend_up` from line `i` (with `j ≤ i` and the
desired column cached), `head` is the walk position of line `i - j`. -/
theorem extend_up_walk (D : Nat) :
    ∀ j (e : Editor) (i : Nat), (∀ g ∈ e.text, 1 ≤ g.len) → e.desired_column = some D →
      1 ≤ j → j ≤ i → i < lineLen e.text → OnLine e.text i e.head →
      (e.extend_up j).text = e.text ∧ (e.extend_up j).desired_column = some D ∧
        (e.extend_up j).head =
          columnWalk (lineContent e.text (i - j)) (byteOfLine e.text (i - j)) 0 D := by
  intro j
  induction j with
  | zero => intro _ _ _ _ h1 _ _ _; exact absurd h1 (by omega)
  | succ j ih =>
    intro e i hwf hd _ hj hi ho
    have hci : lineOfByte e.text e.head = i :=
      lineOfByte_of_onLine e.text hwf hi ho
    have hne : ¬ i = 0 := by omega
    simp only [Editor.extend_up, hci, hne, if_false, hd, Option.getD_some]
    by_cases hj0 : j = 0
    · subst hj0
      simp [Editor.extend_up]
    · have step := ih { e with
          desired_column := some D
          head := columnWalk (lineContent e.text (i - 1)) (byteOfLine e.text (i - 1)) 0 D }
        (i - 1) hwf rfl (by omega) (by omega)
        (by show i - 1 < lineLen e.text; omega)
        (onLine_walk e.text (i - 1) D)
      have e1 : i - 1 - j = i - (j + 1) := by omega
      rw [e1] at step
      exact step

theorem reduce_text (e : Editor) : e.reduce.text = e.text := rfl

theorem reduce_head (e : Editor) : e.reduce.head = e.head := rfl

theorem reduce_desired (e : Editor) : e.reduce.desired_column = e.desired_column := rfl

/-- The vertical round trip: with a fresh desired-column cache, positive
cluster lengths and widths, `head` a whole number of graphemes into line `i0`,
and the `n` down-moves staying short of the last line, `move_down n` then
`move_up n` restores `head`. -/
theorem roundtrip_head (e : Editor) (n i0 k : Nat)
    (hwf : WF e.text)
    (hdc : e.desired_column = none)
    (hn : i0 + n < lineLen e.text)
    (hk : k ≤ (lineContent e.text i0).length)
    (hpos : e.head = byteOfLine e.text i0 + sumLen ((lineContent e.text i0).take k)) :
    ((e.move_down n).move_up n).head = e.head := by
  have hlen : ∀ g ∈ e.text, 1 ≤ g.len := fun g hg => (hwf g hg).1
  have hwid : ∀ g ∈ lineContent e.text i0, 1 ≤ g.width :=
    fun g hg => (hwf g (lineContent_subset e.text i0 g hg)).2
  cases n with
  | zero =>
    simp [Editor.move_down, Editor.move_up, Editor.extend_down, Editor.extend_up,
      Editor.reduce]
  | succ n =>
    have ho : OnLine e.text i0 e.head := ⟨k, hk, hpos⟩
    have hci : lineOfByte e.text e.head = i0 :=
      lineOfByte_of_onLine e.text hlen (by omega) ho
    have hguard : ¬ lineLen e.text ≤ i0 + 1 := by omega
    -- the first down step caches the desired column D
    set D := sumWidth ((lineContent e.text i0).take k) with hD
    have hslice : sliceWidth e.text (byteOfLine e.text i0) e.head = D := by
      rw [hpos]
      exact sliceWidth_line_prefix e.text i0 k hlen hk
    have hdown1 : e.extend_down (n + 1) =
        (Editor.extend_down { e with
          desired_column := some D
          head := columnWalk (lineContent e.text (i0 + 1)) (byteOfLine e.text (i0 + 1)) 0 D } n) := by
      conv_lhs => rw [Editor.extend_down]
      simp only [hci, hguard, if_false, hdc, Option.getD_none, hslice]
    set e1 : Editor := { e with
      desired_column := some D
      head := columnWalk (lineContent e.text (i0 + 1)) (byteOfLine e.text (i0 + 1)) 0 D }
      with he1
    have inv := extend_down_inv D n e1 (i0 + 1) hlen rfl
      (onLine_walk e.text (i0 + 1) D) (by show i0 + 1 + n < lineLen e.text; omega)
    set A := e1.extend_down n with hA
    have hAtext : A.text = e.text := inv.1
    have hAdes : A.desired_column = some D := inv.2.1
    have hAon : OnLine e.text (i0 + (n + 1)) A.head := by
      have := inv.2.2
      have e2 : i0 + 1 + n = i0 + (n + 1) := by omega
      rw [e2] at this
      exact this
    -- the up phase walks back to line i0
    have hup := extend_up_walk D (n + 1) A.reduce (i0 + (n + 1))
      (by rw [reduce_text, hAtext]; exact hlen)
      (by rw [reduce_desired]; exact hAdes)
      (by omega) (by omega)
      (by rw [reduce_text, hAtext]; omega)
      (by rw [reduce_text, reduce_head, hAtext]; exact hAon)
    have e3 : i0 + (n + 1) - (n + 1) = i0 := by omega
    rw [e3] at hup
    have hfinal : ((A.reduce).extend_up (n + 1)).head =
        columnWalk (lineContent e.text i0) (byteOfLine e.text i0) 0 D := by
      have := hup.2.2
      rw [reduce_text, hAtext] at this
      exact this
    show (((e.extend_down (n + 1)).reduce.extend_up (n + 1)).reduce).head = e.head
    rw [reduce_head, hdown1, hfinal, hD,
      columnWalk_exact (lineContent e.text i0) k (byteOfLine e.text i0) hk hwid, ← hpos]

/-! ### Click resolution and the forward-caret convention -/

/-- A resolved click position is always a grapheme boundary. -/
theorem pos_to_off_isB (R : Rope) (vs : Nat) (area : Rect) (p : Pos) (off : Nat)
    (h : position_to_byte_offset R vs area p = some off) : isB R off = true := by
  unfold position_to_byte_offset at h
  by_cases hc : area.containsPos p
  · simp only [hc, if_true] at h
    by_cases hrow : lineLen R ≤ (p.y - area.y) + vs
    · simp only [hrow, if_true, Option.some.injEq] at h
      rw [← h]
      exact isB_byteLen R
    · simp only [hrow, if_false, Option.some.injEq] at h
      obtain ⟨j, hj, he⟩ := columnWalk_prefix
        (lineContent R ((p.y - area.y) + vs)) (byteOfLine R ((p.y - area.y) + vs)) 0
        (p.x - area.x)
      rw [← h, he]
      exact isB_line_prefix R _ j hj
  · simp [hc] at h

/-- Stepping back one grapheme from the ceil boundary one past a boundary `b`
below the buffer end lands on `b` again. -/
theorem prev_of_ceil (R : Rope) {b : Nat} (hb : isB R b = true) (hlt : b < byteLen R) :
    prev_grapheme_boundary R (ceil_grapheme_boundary R (b + 1)) = some b ∧
      b < ceil_grapheme_boundary R (b + 1) := by
  have hnl : ¬ byteLen R < b + 1 := by omega
  by_cases hb1 : isB R (b + 1)
  · have hc : ceil_grapheme_boundary R (b + 1) = b + 1 := by
      simp [ceil_grapheme_boundary, hnl, hb1]
    refine ⟨?_, by omega⟩
    rw [hc]
    simp only [prev_grapheme_boundary, Nat.succ_ne_zero, if_false, hnl, Option.some.injEq,
      prevScan, hb, if_true]
  · have hlt1 : b + 1 < byteLen R := by
      rcases Nat.lt_or_ge (b + 1) (byteLen R) with h | h
      · exact h
      · exfalso
        have : b + 1 = byteLen R := by omega
        rw [this] at hb1
        exact hb1 (isB_byteLen R)
    have hc : ceil_grapheme_boundary R (b + 1) =
        nextAux R (byteLen R - (b + 1)) (b + 1) := by
      simp only [ceil_grapheme_boundary, hnl, if_false, hb1, Bool.false_eq_true,
        next_grapheme_boundary]
      have : ¬ byteLen R ≤ b + 1 := by omega
      simp [this]
    set c := nextAux R (byteLen R - (b + 1)) (b + 1) with hcdef
    have hcle : c ≤ byteLen R := by
      have := nextAux_le R (byteLen R - (b + 1)) (b + 1)
      omega
    have hcgt : b + 1 < c := by
      have : 1 ≤ byteLen R - (b + 1) := by omega
      obtain ⟨f, hf⟩ := Nat.exists_eq_add_of_le this
      rw [hcdef, show byteLen R - (b + 1) = 1 + f from hf, Nat.add_comm 1 f]
      exact nextAux_gt R f (b + 1)
    have hgap : ∀ j, b < j → j < c → isB R j = false := by
      intro j h1 h2
      by_cases hj : j = b + 1
      · subst hj
        simpa using hb1
      · exact nextAux_gap R (byteLen R - (b + 1)) (b + 1) j (by omega) h2
    refine ⟨?_, by rw [hc]; omega⟩
    rw [hc]
    have hc0 : ¬ c = 0 := by omega
    have hc1 : ¬ byteLen R < c := by omega
    simp only [prev_grapheme_boundary, hc0, if_false, hc1, Option.some.injEq]
    exact prevScan_maximal R hb (by omega) hgap

/-- From a forward selection, the `move_to` convention of `src/editor.rs`
yields the selection `(off, ceil(off + 1))` whenever `off` is a boundary below
the buffer end. -/
theorem move_to_forward (e : Editor) (off : Nat)
    (hB : isB e.text off = true) (hoff : off < byteLen e.text)
    (hfwd : e.is_backward = false) :
    (e.move_to off).anchor = off ∧
      (e.move_to off).head = ceil_grapheme_boundary e.text (off + 1) := by
  obtain ⟨hprev, hgt⟩ := prev_of_ceil e.text hB hoff
  set c := ceil_grapheme_boundary e.text (off + 1) with hc
  have h1 : e.extend_to off = { e with
      head := c
      desired_column := some (sliceWidth e.text (byteOfLine e.text (lineOfByte e.text c)) c) } := by
    simp only [Editor.extend_to, hfwd, Bool.false_eq_true, if_false, hc]
  have hloop : extendLeftLoop e.text c 1 = off := by
    simp only [extendLeftLoop, hprev]
    have : ¬ c = off := by omega
    simp [this]
  show ((((e.extend_to off).reduce).extend_left 1).flip_forward).anchor = off ∧
    ((((e.extend_to off).reduce).extend_left 1).flip_forward).head = c
  rw [h1]
  simp only [Editor.reduce, Editor.extend_left, Editor.flip_forward, Editor.is_forward,
    Editor.flip, hloop]
  have : ¬ c ≤ off := by omega
  simp [this]

theorem delBytes_empty (R : Rope) (a : Nat) : delBytes R a a = R := by
  induction R generalizing a with
  | nil => simp [delBytes]
  | cons g gs ih =>
    simp only [delBytes]
    by_cases h : g.len ≤ a
    · simp [h, ih]
    · simp [h]

theorem clap_quit : clapParse ["quit"] = Except.ok (Command.quit none) := rfl

theorem clap_q : clapParse ["q"] = Except.ok (Command.quit none) := rfl

theorem clap_quitForce : clapParse ["quit!"] = Except.ok (Command.quitForce none) := rfl

theorem clap_qForce : clapParse ["q!"] = Except.ok (Command.quitForce none) := rfl

theorem clap_quitForce_arg (s : String) :
    clapParse ["quit!", s] = parseExitArg Command.quitForce [s] := rfl

theorem clap_qForce_arg (s : String) :
    clapParse ["q!", s] = parseExitArg Command.quitForce [s] := rfl

/-- `quit`/`q` on a modified buffer: status error, no exit signal. -/
theorem runTokens_quit_modified (e : Editor) (v : String)
    (hv : v = "quit" ∨ v = "q") (hm : e.modified = true) :
    (e.runTokens [v]).message = some (Status.error "Unsaved changes") ∧
      (e.runTokens [v]).exit_code = e.exit_code := by
  rcases hv with hv | hv <;> subst hv <;>
    simp [Editor.runTokens, clap_quit, clap_q, hm, Editor.commandCleanup]

/-- `quit!`/`q!`: unconditional exit with the given code or 0. -/
theorem runTokens_quitForce (e : Editor) (w s : String) (c : Nat)
    (hw : w = "quit!" ∨ w = "q!") (hc : parseU8 s = some c) :
    (e.runTokens [w]).exit_code = some 0 ∧
      (e.runTokens [w, s]).exit_code = some c := by
  rcases hw with hw | hw <;> subst hw <;>
    constructor <;>
    simp [Editor.runTokens, clap_quitForce, clap_qForce, clap_quitForce_arg, clap_qForce_arg,
      parseExitArg, hc, Editor.commandCleanup, Option.getD]

section Scratch

example : update (initialEditor []) screen (Event.key Mods.ctrl (KeyCode.char 'p')) = none := by
  decide
example :
    update { initialEditor ropeANl with anchor := 2, head := 2, mode := Mode.goto } screen
      (Event.key Mods.none (KeyCode.char 'l')) = none := by
  decide

example :
    ((update (initialEditor ropeAb2) screen (Event.key Mods.shift (KeyCode.char 'J'))).bind
      (fun e => update e screen (Event.mouse MouseKind.scrollDown 0 0))).bind
      (fun e => update e screen (Event.key Mods.none (KeyCode.char 'd'))) =
    some { initialEditor [ch1] with
           vertical_scroll := 1
           modified := true
           desired_column := some 0 } := by
  decide

example :
    ((({ initialEditor ropeAbCde with anchor := 1, head := 1 }).move_down 1).move_up 1).head
      = 1 := by decide

example : Editor.execute_command { initialEditor [] with mode := Mode.command, command := "" }
    = { initialEditor [] with
        message := some (Status.error (stripErrorTag missingSubcommandMsg)) } := by decide

example :
    (Editor.execute_command
      { initialEditor [] with mode := Mode.command, command := "foo" }).message
    = some (Status.error (stripErrorTag (unrecognizedMsg "foo"))) := by decide
example : (stripErrorTag (unrecognizedMsg "foo")).data.contains '\n' = true := by decide

example : shellwordsSplit "" = some [] := by decide
example : shellwordsSplit "   " = some [] := by decide
example : shellwordsSplit "quit" = some ["quit"] := by decide
example : shellwordsSplit "wq 3" = some ["wq", "3"] := by decide
example : parseU8 "3" = some 3 := by decide
example : parseU8 "300" = none := by decide

-- C9: backward-selection click diverges from the move_to convention.
example :
    (updateMouse { initialEditor ropeAb with anchor := 2, head := 0 } screen
      MouseKind.downLeft 0 0) =
    (updateMouse { initialEditor ropeAb with anchor := 2, head := 0 } screen
      MouseKind.downLeft 0 0) := by rfl
example :
    position_to_byte_offset ropeAb 0 (areasNew ropeAb screen).text ⟨4, 1⟩ = some 1 := by
  decide
example :
    ((update { initialEditor ropeAb with anchor := 2, head := 0 } screen
      (Event.mouse MouseKind.downLeft 4 1)).map Editor.anchor) = some 1 := by decide
example :
    (({ initialEditor ropeAb with anchor := 2, head := 0 }).move_to 1).anchor = 0 := by decide
example :
    ((update { initialEditor ropeAb with anchor := 0, head := 0 } screen
      (Event.mouse MouseKind.downLeft 4 1)).map (fun e => (e.anchor, e.head))) =
    some (1, 2) := by decide
example :
    (({ initialEditor ropeAb with anchor := 0, head := 0 }).move_to 1).anchor = 1 ∧
    (({ initialEditor ropeAb with anchor := 0, head := 0 }).move_to 1).head = 2 := by decide

example : isB [⟨2, 1, false⟩, ⟨1, 1, true⟩] 2 = true := by decide
example : isB [⟨2, 1, false⟩, ⟨1, 1, true⟩] 1 = false := by decide
example : lineLen [⟨1, 1, false⟩, ⟨1, 1, true⟩] = 1 := by decide
example : lineLen [⟨1, 1, false⟩, ⟨1, 1, true⟩, ⟨1, 1, false⟩] = 2 := by decide
example : lineOfByte [⟨1, 1, false⟩, ⟨1, 1, true⟩] 2 = 1 := by decide
example : byteOfLine [⟨1, 1, false⟩, ⟨1, 1, true⟩, ⟨1, 1, false⟩] 1 = 2 := by decide
example : lineContent [⟨1, 1, false⟩, ⟨1, 1, true⟩, ⟨1, 1, false⟩] 1 = [⟨1, 1, false⟩] := by decide
example : prev_grapheme_boundary [⟨2, 1, false⟩, ⟨1, 1, true⟩] 2 = some 0 := by decide
example : next_grapheme_boundary [⟨2, 1, false⟩, ⟨1, 1, true⟩] 1 = some 2 := by decide
example : ceil_grapheme_boundary [⟨1, 1, false⟩] 2 = 1 := by decide
example : floor_grapheme_boundary [⟨2, 1, false⟩] 1 = 0 := by decide
example : columnWalk [⟨1, 1, false⟩, ⟨1, 1, false⟩] 0 0 1 = 1 := by decide
example : delBytes [⟨1, 1, false⟩, ⟨1, 1, true⟩, ⟨1, 1, false⟩] 0 2 = [⟨1, 1, false⟩] := by decide
example : delBytes [⟨1, 1, false⟩] 1 1 = [⟨1, 1, false⟩] := by decide
example : insertGs [⟨1, 1, false⟩] 1 [⟨2, 2, false⟩] = [⟨1, 1, false⟩, ⟨2, 2, false⟩] := by decide

end Scratch

/-! ### The claims -/

/-- Claim C1 (code bug): the update step is claimed never to panic on user
input, but the source binds `panic!()` to Ctrl+P in Normal mode, and
`extend_line_end` (Goto mode, key `l`) indexes a line out of bounds at end of
buffer after a trailing newline — a panic the source's own TODO comment
acknowledges.  Both failing inputs evaluate to the panic outcome. -/
theorem c1_update_panics :
    update (initialEditor []) screen (Event.key Mods.ctrl (KeyCode.char 'p')) = none ∧
      update { initialEditor ropeANl with anchor := 2, head := 2, mode := Mode.goto } screen
        (Event.key Mods.none (KeyCode.char 'l')) = none := by
  decide

/-- Claim C2 (code bug): the vertical scroll index is claimed to stay within
`[0, max(0, lineCount-1)]` in every reachable state, but `delete` never
re-clamps it.  On the buffer `"a\nb"`, extending down (Shift+J), wheel
scrolling down (clamped to line index 1) and deleting the selection leaves
one line yet keeps the scroll index at 1, falsifying the clamp (and the
`debug_assert!` guarding the scroll functions). -/
theorem c2_delete_breaks_scroll_clamp :
    (((update (initialEditor ropeAb2) screen (Event.key Mods.shift (KeyCode.char 'J'))).bind
        (fun e => update e screen (Event.mouse MouseKind.scrollDown 0 0))).bind
        (fun e => update e screen (Event.key Mods.none (KeyCode.char 'd')))).map
          (fun e => (e.vertical_scroll, lineLen e.text)) = some (1, 1) ∧
      (((update (initialEditor ropeAb2) screen (Event.key Mods.shift (KeyCode.char 'J'))).bind
        (fun e => update e screen (Event.mouse MouseKind.scrollDown 0 0))).bind
        (fun e => update e screen (Event.key Mods.none (KeyCode.char 'd')))).map
          (fun e => decide (e.vertical_scroll ≤ lineLen e.text - 1)) = some false := by
  decide

/-- Claim C3 counterexample: `insert` is claimed to clear the cached desired
column, but the main.rs implementation leaves it untouched. -/
theorem c3_insert_desired_cex :
    (({ initialEditor ropeAbCde with anchor := 1, head := 1, desired_column := some 1 }).insert
      [ch1]).desired_column ≠ none := by
  decide

/-- Claim C3 (amended): for `head` on a grapheme boundary, `insert(s)` splices
`s` at `head`, advances `head` by the byte length of `s`, collapses the
selection and marks the buffer modified — but leaves the cached desired
column unchanged rather than clearing it (only the Enter binding of Insert
mode clears it separately). -/
theorem c3_insert_spec (e : Editor) (s : Rope) (h : isB e.text e.head = true) :
    (e.insert s).text = insertGs e.text e.head s ∧
      (e.insert s).head = e.head + sumLen s ∧
      (e.insert s).anchor = (e.insert s).head ∧
      (e.insert s).modified = true ∧
      (e.insert s).desired_column = e.desired_column :=
  ⟨rfl, rfl, rfl, rfl, rfl⟩

/-- Witness for C3 at a concrete boundary input. -/
theorem c3_insert_spec_witness :
    ((initialEditor ropeAb).insert [ch1]).text = insertGs ropeAb 0 [ch1] ∧
      ((initialEditor ropeAb).insert [ch1]).head = 0 + sumLen [ch1] ∧
      ((initialEditor ropeAb).insert [ch1]).anchor = ((initialEditor ropeAb).insert [ch1]).head ∧
      ((initialEditor ropeAb).insert [ch1]).modified = true ∧
      ((initialEditor ropeAb).insert [ch1]).desired_column = (initialEditor ropeAb).desired_column :=
  c3_insert_spec (initialEditor ropeAb) [ch1] (by decide)

/-- Claim C4 (code bug): confirming an empty command line is claimed to be a
no-op that sets no status message, but main.rs feeds the empty token list
straight to the parser, whose missing-subcommand failure becomes a status
error (the unused `editor.rs` copy of `execute_command` has the empty-token
check that main.rs lacks). -/
theorem c4_empty_command_sets_message :
    shellwordsSplit "" = some [] ∧
      (Editor.execute_command
        { initialEditor [] with mode := Mode.command, command := "" }).message
        = some (Status.error (stripErrorTag missingSubcommandMsg)) ∧
      stripErrorTag missingSubcommandMsg ≠ "" := by
  decide

/-- Claim C5: `quit`/`q` on a modified buffer reports "Unsaved changes" and
leaves the exit signal unset, while `quit!`/`q!` sets the exit signal
unconditionally, to the given code or 0 by default. -/
theorem c5_quit_semantics (e f g : Editor) (v w s : String) (c : Nat)
    (hv : v = "quit" ∨ v = "q") (hw : w = "quit!" ∨ w = "q!")
    (hm : e.modified = true) (hx : e.exit_code = none) (hc : parseU8 s = some c) :
    (e.runTokens [v]).message = some (Status.error "Unsaved changes") ∧
      (e.runTokens [v]).exit_code = none ∧
      (f.runTokens [w]).exit_code = some 0 ∧
      (g.runTokens [w, s]).exit_code = some c := by
  obtain ⟨h1, h2⟩ := runTokens_quit_modified e v hv hm
  obtain ⟨h3, h4⟩ := runTokens_quitForce f w s c hw hc
  obtain ⟨_, h5⟩ := runTokens_quitForce g w s c hw hc
  exact ⟨h1, by rw [h2, hx], h3, h5⟩

/-- Witness for C5 at concrete inputs. -/
theorem c5_quit_semantics_witness :
    (({ initialEditor [] with modified := true }).runTokens ["quit"]).message
        = some (Status.error "Unsaved changes") ∧
      (({ initialEditor [] with modified := true }).runTokens ["quit"]).exit_code = none ∧
      ((initialEditor []).runTokens ["quit!"]).exit_code = some 0 ∧
      ((initialEditor []).runTokens ["quit!", "3"]).exit_code = some 3 :=
  c5_quit_semantics { initialEditor [] with modified := true } (initialEditor [])
    (initialEditor []) "quit" "quit!" "3" 3 (Or.inl rfl) (Or.inl rfl) rfl rfl (by decide)

/-- Claim C6 (code bug): the status message after a parse failure is claimed
to be the first line of the failure text, but main.rs stores the whole
multi-line message (only the leading error tag stripped); the editor returns
to Normal mode.  The unused `editor.rs` copy takes `.lines().next()` as the
claim describes. -/
theorem c6_full_error_message :
    (Editor.execute_command
        { initialEditor [] with mode := Mode.command, command := "foo" }).message
      = some (Status.error (stripErrorTag (unrecognizedMsg "foo"))) ∧
      firstLine (stripErrorTag (unrecognizedMsg "foo")) ≠ stripErrorTag (unrecognizedMsg "foo") ∧
      (Editor.execute_command
        { initialEditor [] with mode := Mode.command, command := "foo" }).mode = Mode.normal ∧
      (Editor.execute_command
        { initialEditor [] with mode := Mode.command, command := "foo" }).text = [] ∧
      (Editor.execute_command
        { initialEditor [] with mode := Mode.command, command := "foo" }).exit_code = none := by
  decide

/-- Claim C7 counterexample: `x ≤ ceil(x)` fails beyond the buffer length,
where `ceil` clamps: on a one-byte buffer, `ceil(2) = 1 < 2`. -/
theorem c7_ceil_clamp_cex :
    ceil_grapheme_boundary [ch1] 2 = 1 ∧ ¬ (2 ≤ ceil_grapheme_boundary [ch1] 2) := by
  decide

/-- Claim C7 (amended): `floor(x) ≤ x` for every offset, and `x ≤ ceil(x)`
for offsets within the buffer; a boundary is a fixed point of both; floor is
idempotent; and beyond the length both clamp to the length (so there
`ceil(x) < x`, contrary to the claimed inequality). -/
theorem c7_boundary_laws (R : Rope) (o : Nat) :
    floor_grapheme_boundary R o ≤ o ∧
      (o ≤ byteLen R → o ≤ ceil_grapheme_boundary R o) ∧
      (isB R o = true → floor_grapheme_boundary R o = o ∧ ceil_grapheme_boundary R o = o) ∧
      floor_grapheme_boundary R (floor_grapheme_boundary R o) = floor_grapheme_boundary R o ∧
      (byteLen R < o → floor_grapheme_boundary R o = byteLen R ∧
        ceil_grapheme_boundary R o = byteLen R) :=
  ⟨floor_le R o, fun h => le_ceil R h, fun h => ⟨floor_of_isB R h, ceil_of_isB R h⟩,
    floor_idem R o, fun h => ⟨floor_clamp R h, ceil_clamp R h⟩⟩

/-- Claim C8: with a fresh desired-column cache, `head` a whole number of
graphemes into line `i0` of a well-formed buffer, and the `n` down-moves
staying short of the last line, `move_down n` then `move_up n` restores
`head` to its original byte offset. -/
theorem c8_vertical_roundtrip (e : Editor) (n i0 k : Nat) (hwf : WF e.text)
    (hdc : e.desired_column = none) (hn : i0 + n < lineLen e.text)
    (hk : k ≤ (lineContent e.text i0).length)
    (hpos : e.head = byteOfLine e.text i0 + sumLen ((lineContent e.text i0).take k)) :
    ((e.move_down n).move_up n).head = e.head :=
  roundtrip_head e n i0 k hwf hdc hn hk hpos

/-- Witness for C8: the spec's scenario — buffer `"ab\ncde"`, head at byte 1,
`move_down 1` then `move_up 1` leaves head at byte 1. -/
theorem c8_vertical_roundtrip_witness :
    ((({ initialEditor ropeAbCde with anchor := 1, head := 1 }).move_down 1).move_up 1).head
        = ({ initialEditor ropeAbCde with anchor := 1, head := 1 }).head ∧
      ({ initialEditor ropeAbCde with anchor := 1, head := 1 }).head = 1 :=
  ⟨c8_vertical_roundtrip { initialEditor ropeAbCde with anchor := 1, head := 1 } 1 0 1
      (by decide) rfl (by decide) (by decide) (by decide),
    rfl⟩

/-- Claim C9 counterexample: with a backward selection (anchor 2, head 0 on
`"ab"`), a primary click resolving to offset 1 yields the plain caret
`(1, 1)`, while the claimed forward-caret convention (`move_to`) yields
`(0, 1)`. -/
theorem c9_backward_click_cex :
    ((update { initialEditor ropeAb with anchor := 2, head := 0 } screen
        (Event.mouse MouseKind.downLeft 4 1)).map (fun e => (e.anchor, e.head))) = some (1, 1) ∧
      ((({ initialEditor ropeAb with anchor := 2, head := 0 }).move_to 1).anchor,
        (({ initialEditor ropeAb with anchor := 2, head := 0 }).move_to 1).head) = (0, 1) ∧
      position_to_byte_offset ropeAb 0 (areasNew ropeAb screen).text ⟨4, 1⟩ = some 1 := by
  decide

/-- Claim C9 (amended): a primary-button press that resolves to offset `off`
sets `anchor := off`, clears the desired column, and sets `head := off` when
the prior selection was backward (a plain caret) or
`head := ceil(off + 1)` when it was forward; the latter coincides with the
forward-caret convention (`move_to` of `src/editor.rs`) whenever the click
lands below the buffer end. -/
theorem c9_click_spec (e : Editor) (area : Rect) (col row off : Nat)
    (hoff : position_to_byte_offset e.text e.vertical_scroll (areasNew e.text area).text
      ⟨col, row⟩ = some off) :
    (update e area (Event.mouse MouseKind.downLeft col row)).map Editor.anchor = some off ∧
      (update e area (Event.mouse MouseKind.downLeft col row)).map Editor.head =
        some (if e.is_backward then off else ceil_grapheme_boundary e.text (off + 1)) ∧
      (update e area (Event.mouse MouseKind.downLeft col row)).map Editor.desired_column =
        some none ∧
      (e.is_backward = false → off < byteLen e.text →
        (e.move_to off).anchor = off ∧
          (e.move_to off).head = ceil_grapheme_boundary e.text (off + 1)) := by
  have hres : update e area (Event.mouse MouseKind.downLeft col row) =
      some { e with
        message := none
        head := if e.is_backward then off else ceil_grapheme_boundary e.text (off + 1)
        anchor := off
        desired_column := none } := by
    simp only [update, updateMouse, hoff]
    rfl
  refine ⟨?_, ?_, ?_, ?_⟩
  · rw [hres]; rfl
  · rw [hres]; rfl
  · rw [hres]; rfl
  · intro hfwd hlt
    exact move_to_forward e off
      (pos_to_off_isB e.text e.vertical_scroll _ ⟨col, row⟩ off hoff) hlt hfwd

/-- Witness for C9: a forward-selection click on `"ab"` resolving to offset 1
gives anchor 1, head 2, matching the convention. -/
theorem c9_click_spec_witness :
    (update (initialEditor ropeAb) screen (Event.mouse MouseKind.downLeft 4 1)).map
        Editor.anchor = some 1 ∧
      (update (initialEditor ropeAb) screen (Event.mouse MouseKind.downLeft 4 1)).map
        Editor.head =
        some (if (initialEditor ropeAb).is_backward then 1
              else ceil_grapheme_boundary (initialEditor ropeAb).text (1 + 1)) ∧
      (update (initialEditor ropeAb) screen (Event.mouse MouseKind.downLeft 4 1)).map
        Editor.desired_column = some none ∧
      ((initialEditor ropeAb).is_backward = false → 1 < byteLen (initialEditor ropeAb).text →
        ((initialEditor ropeAb).move_to 1).anchor = 1 ∧
          ((initialEditor ropeAb).move_to 1).head =
            ceil_grapheme_boundary (initialEditor ropeAb).text (1 + 1)) :=
  c9_click_spec (initialEditor ropeAb) screen 4 1 1 (by decide)

/-- Claim C10: deleting with a collapsed selection (anchor = head) removes the
empty range — the buffer is unchanged — yet still sets the modified flag, so
a following plain `quit` reports "Unsaved changes" and sets no exit signal. -/
theorem c10_caret_delete_marks_modified (e : Editor) (s : String)
    (h : e.anchor = e.head) (hs : shellwordsSplit s = some ["quit"]) :
    (e.delete).text = e.text ∧ (e.delete).modified = true ∧
      (Editor.execute_command { e.delete with command := s }).message
        = some (Status.error "Unsaved changes") ∧
      (Editor.execute_command { e.delete with command := s }).exit_code = e.exit_code := by
  have htext : (e.delete).text = e.text := by
    simp [Editor.delete, h, delBytes_empty]
  refine ⟨htext, rfl, ?_, ?_⟩
  · simp only [Editor.execute_command]
    rw [hs]
    simp [Editor.runTokens, clap_quit, Editor.commandCleanup, Editor.delete]
  · simp only [Editor.execute_command]
    rw [hs]
    simp [Editor.runTokens, clap_quit, Editor.commandCleanup, Editor.delete]

/-- Witness for C10 at a concrete caret state. -/
theorem c10_caret_delete_marks_modified_witness :
    ((initialEditor ropeAb).delete).text = (initialEditor ropeAb).text ∧
      ((initialEditor ropeAb).delete).modified = true ∧
      (Editor.execute_command { (initialEditor ropeAb).delete with command := "quit" }).message
        = some (Status.error "Unsaved changes") ∧
      (Editor.execute_command { (initialEditor ropeAb).delete with command := "quit" }).exit_code
        = (initialEditor ropeAb).exit_code :=
  c10_caret_delete_marks_modified (initialEditor ropeAb) "quit" rfl (by decide)

end Blue
